import Mathlib

/-!
Shallow embedding of the WarFrontLive front-end core (two JS variants:
`script.js` and the unnamed variant `part_000`).  JS numbers are modelled
as rationals, JS objects used as string-keyed maps as association lists
(later assignments win), thrown exceptions as `Except Unit`.
-/

namespace WarFront

/-! ## Geometry -/

/-- An axis-aligned bounding box `{north, south, east, west}` as stored in the
location cache. -/
structure BBox where
  north : ℚ
  south : ℚ
  east : ℚ
  west : ℚ
deriving DecidableEq, Repr

/-- A cache geometry value: a point `{lat, lon}`, a bounding box, or an object
with neither field set (the "invalid coordinate format" branch of
`isLocationInBounds` / `addLocationToMap`). -/
inductive Coord where
  | pt (lat lon : ℚ)
  | box (b : BBox)
  | other
deriving DecidableEq, Repr

/-- Point branch of `isLocationInBounds` (part_000, lines 633-641):
`coord.lat >= bounds.south && coord.lat <= bounds.north &&
 coord.lon >= bounds.west && coord.lon <= bounds.east`. -/
def pointInRegion (lat lon : ℚ) (bounds : BBox) : Bool :=
  decide (lat ≥ bounds.south) && decide (lat ≤ bounds.north) &&
  decide (lon ≥ bounds.west) && decide (lon ≤ bounds.east)

/-- Box branch of `isLocationInBounds` (part_000, lines 650-651):
`!(coord.south > bounds.north || coord.north < bounds.south ||
   coord.west > bounds.east || coord.east < bounds.west)`. -/
def regionsOverlap (coord bounds : BBox) : Bool :=
  !(decide (coord.south > bounds.north) || decide (coord.north < bounds.south) ||
    decide (coord.west > bounds.east) || decide (coord.east < bounds.west))

/-- `isLocationInBounds(coord, bounds)` (part_000, lines 631-665). -/
def isLocationInBounds (coord : Coord) (bounds : BBox) : Bool :=
  match coord with
  | .pt lat lon => pointInRegion lat lon bounds
  | .box b => regionsOverlap b bounds
  | .other => false

/-! ## Location key normalization and the cache -/

/-- JS `String.prototype.trim`: strip leading and trailing whitespace,
modelled on the character list. -/
def trimChars (l : List Char) : List Char :=
  ((l.dropWhile Char.isWhitespace).reverse.dropWhile Char.isWhitespace).reverse

/-- `location.trim().toLowerCase()`, the key normalization applied at every
query site in both variants. -/
def normalizeKey (s : String) : String := ⟨(trimChars s.data).map Char.toLower⟩

/-- The raw location cache: an ordered JSON object mapping raw name strings to
either a geometry object or the explicit `null` marker (`Option.none` here). -/
abbrev Cache := List (String × Option Coord)

/-- Property lookup on a JS object built by successive assignments: the last
assignment to a key wins; absent keys give `none` (JS `undefined`). -/
def cacheLookup (cache : Cache) (k : String) : Option (Option Coord) :=
  (cache.reverse.find? (fun p => p.1 = k)).map Prod.snd

/-- part_000, initMap lines 85-90: the cache is rebuilt with every key
normalized (`locationCache[key.trim().toLowerCase()] = rawLocationCache[key]`). -/
def buildCachePart000 (raw : Cache) : Cache :=
  raw.map (fun p => (normalizeKey p.1, p.2))

/-- Resolver lookup in the part_000 variant: normalized query key against the
normalized-at-load cache. -/
def lookupPart000 (raw : Cache) (location : String) : Option (Option Coord) :=
  cacheLookup (buildCachePart000 raw) (normalizeKey location)

/-- Resolver lookup in the script.js variant (lines 64-65 store the cache raw;
line 296 queries `locationCache[location.trim().toLowerCase()]`). -/
def lookupScript (raw : Cache) (location : String) : Option (Option Coord) :=
  cacheLookup raw (normalizeKey location)

/-! ## Messages -/

/-- A location entry of a message: either a string or some non-string JS value
(`null`, a number, ...) on which `typeof location !== 'string'` holds. -/
inductive LocVal where
  | str (s : String)
  | nonString
deriving DecidableEq, Repr

/-- A loaded message record.  `id` is `none` when the source record carries no
`id` field. -/
structure Msg where
  id : Option String := none
  text : String
  date : String
  channel : String
  locations : List LocVal
deriving DecidableEq, Repr

/-- The fallback identity string `` `${msg.text}_${msg.date}_${msg.channel}` ``
(part_000, line 615). -/
def joinKey (m : Msg) : String := m.text ++ "_" ++ m.date ++ "_" ++ m.channel

/-- `msg.id || fallback`: the id is used when present and truthy (a nonempty
string), otherwise the joined triple string. -/
def keyOf (m : Msg) : String :=
  match m.id with
  | some s => if s = "" then joinKey m else s
  | none => joinKey m

/-! ## Region aggregator (part_000, `addLocationToMap` lines 313-396) -/

/-- A Region entity in `regionStore`: name, bounds, directly associated
messages in insertion order, and the derived center point. -/
structure Region where
  name : String
  bounds : BBox
  messages : List Msg
  center : ℚ × ℚ
deriving DecidableEq, Repr

/-- One ingestion step on the region store.  `Object.keys(regionStore).find`
scans entities in insertion order for one with `name === locationName` and all
four bounds exactly equal; on a hit the message is pushed onto its list,
otherwise a fresh entity is appended with the computed center
`[(north+south)/2, (east+west)/2]`. -/
def ingest (store : List Region) (msg : Msg) (locationName : String) (c : BBox) :
    List Region :=
  match store with
  | [] => [{ name := locationName, bounds := c, messages := [msg],
             center := ((c.north + c.south) / 2, (c.east + c.west) / 2) }]
  | r :: rs =>
    if r.name = locationName ∧ r.bounds = c then
      { r with messages := r.messages ++ [msg] } :: rs
    else
      r :: ingest rs msg locationName c

/-- The per-location body of `refreshMarkers` (part_000, lines 265-298) plus
the region branch of `addLocationToMap`: guards skip non-strings, falsy
strings, keys empty after trimming, cache misses and explicit nulls; point
coordinates go to the marker cluster (outside the region store); a bounding
box is ingested under the original (untrimmed) location string. -/
def processLocation (cache : Cache) (store : List Region) (msg : Msg)
    (l : LocVal) : List Region :=
  match l with
  | .nonString => store
  | .str s =>
    if s = "" then store
    else if normalizeKey s = "" then store
    else
      match cacheLookup cache (normalizeKey s) with
      | none => store
      | some none => store
      | some (some c) =>
        match c with
        | .box b => ingest store msg s b
        | .pt _ _ => store
        | .other => store

/-- The full rebuild pass of `refreshMarkers` restricted to the region store:
every message's location list is scanned left to right (messages with a
missing/empty list are skipped up front). -/
def refreshRegions (cache : Cache) (msgs : List Msg) : List Region :=
  msgs.foldl
    (fun store msg =>
      if msg.locations = [] then store
      else msg.locations.foldl (fun st l => processLocation cache st msg l) store)
    []

/-- The derived-center invariant of a Region entity. -/
def centerInv (r : Region) : Prop :=
  r.center = ((r.bounds.north + r.bounds.south) / 2,
              (r.bounds.east + r.bounds.west) / 2)

/-! ## Spatial composite query (part_000, `findMessagesInRegion` lines 593-629)

The loop body calls `location.trim()` without a type guard, so a non-string
location entry raises a `TypeError` that propagates out of `forEach`; this is
modelled with `Except Unit`. -/

/-- `location.trim().toLowerCase()` inside `findMessagesInRegion`: throws on a
non-string value. -/
def locKeyE : LocVal → Except Unit String
  | .str s => .ok (normalizeKey s)
  | .nonString => .error ()

/-- The inner `msg.locations.forEach` of `findMessagesInRegion` with its
`messageIncluded` flag.  The accumulator carries the collected message list
and the `addedMessages` identity set (as a list of keys). -/
def processLocs (cache : Cache) (bounds : BBox) (msg : Msg) :
    List LocVal → Bool → List Msg × List String → Except Unit (List Msg × List String)
  | [], _, acc => .ok acc
  | l :: ls, included, acc =>
    if included then processLocs cache bounds msg ls included acc
    else
      match locKeyE l with
      | .error e => .error e
      | .ok key =>
        match cacheLookup cache key with
        | none => processLocs cache bounds msg ls false acc
        | some none => processLocs cache bounds msg ls false acc
        | some (some c) =>
          if isLocationInBounds c bounds then
            if keyOf msg ∈ acc.2 then processLocs cache bounds msg ls false acc
            else processLocs cache bounds msg ls true (acc.1 ++ [msg], acc.2 ++ [keyOf msg])
          else processLocs cache bounds msg ls false acc

/-- The outer `allMessages.forEach` of `findMessagesInRegion`, producing the
pre-sort collection. -/
def collectInRegion (cache : Cache) (bounds : BBox) (msgs : List Msg) :
    Except Unit (List Msg × List String) :=
  msgs.foldlM
    (fun acc msg =>
      if msg.locations = [] then .ok acc
      else processLocs cache bounds msg msg.locations false acc)
    ([], [])

/-- Stable insertion of a message into a list already sorted descending by
parsed date: the new element (originally earlier) is placed before any element
whose timestamp it ties or exceeds. -/
def sortInsert (pd : String → Int) (m : Msg) : List Msg → List Msg
  | [] => [m]
  | x :: xs => if pd x.date ≤ pd m.date then m :: x :: xs else x :: sortInsert pd m xs

/-- `messagesInRegion.sort((a, b) => new Date(b.date) - new Date(a.date))`:
`Array.prototype.sort` is stable (ES2019), so this comparator performs exactly
the stable descending sort by parsed timestamp, here with the Date parser
abstracted as `pd`. -/
def sortByDateDesc (pd : String → Int) : List Msg → List Msg
  | [] => []
  | x :: xs => sortInsert pd x (sortByDateDesc pd xs)

/-- `findMessagesInRegion(regionBounds)` over a given message set and cache. -/
def findMessagesInRegion (pd : String → Int) (cache : Cache) (bounds : BBox)
    (allMessages : List Msg) : Except Unit (List Msg) :=
  (collectInRegion cache bounds allMessages).map (fun acc => sortByDateDesc pd acc.1)

/-- Derived predicate: the location entry is a string resolving through the
cache to a geometry that satisfies `isLocationInBounds` against `bounds`. -/
def locMatches (cache : Cache) (bounds : BBox) : LocVal → Bool
  | .str s =>
    match cacheLookup cache (normalizeKey s) with
    | some (some c) => isLocationInBounds c bounds
    | _ => false
  | .nonString => false

/-- Derived predicate: some location of the message matches the bounds. -/
def msgMatches (cache : Cache) (bounds : BBox) (m : Msg) : Bool :=
  m.locations.any (locMatches cache bounds)

/-! ## Visibility / z-order planner (script.js, `updateRegionVisibility`
lines 185-276) -/

/-- The per-rectangle record pushed onto `rectanglesWithSize`. -/
structure RectInfo where
  rect : BBox
  area : ℚ
  relativeArea : ℚ
  latSpan : ℚ
  lonSpan : ℚ
deriving DecidableEq, Repr

/-- Lines 198-214: spans, raw area, and area relative to the viewport. -/
def mkRectInfo (viewport : BBox) (b : BBox) : RectInfo :=
  let latSpan := b.north - b.south
  let lonSpan := b.east - b.west
  let area := latSpan * lonSpan
  let relativeArea := (latSpan / (viewport.north - viewport.south)) *
    (lonSpan / (viewport.east - viewport.west))
  ⟨b, area, relativeArea, latSpan, lonSpan⟩

/-- Stable insertion for the ascending sort by `area`
(`rectanglesWithSize.sort((a, b) => a.area - b.area)`). -/
def areaInsert (x : RectInfo) : List RectInfo → List RectInfo
  | [] => [x]
  | y :: ys => if x.area ≤ y.area then x :: y :: ys else y :: areaInsert x ys

/-- The stable ascending-by-area sort of line 219. -/
def sortByAreaAsc : List RectInfo → List RectInfo
  | [] => []
  | x :: xs => areaInsert x (sortByAreaAsc xs)

/-- Lines 227-242: the small-shape hiding rules by zoom band (`shouldShow` is
cleared when the matching band's span test fires). -/
def smallHide (zoom latSpan lonSpan : ℚ) : Bool :=
  if zoom < 9 then decide (latSpan < 0.1) || decide (lonSpan < 0.1)
  else if zoom < 11 then decide (latSpan < 0.05) || decide (lonSpan < 0.05)
  else if zoom < 13 then decide (latSpan < 0.01) || decide (lonSpan < 0.01)
  else false

/-- Lines 245-255: the large-shape hiding rules by zoom band. -/
def bigHide (zoom relativeArea : ℚ) : Bool :=
  if zoom > 13 then decide (relativeArea > 0.4)
  else if zoom > 11 then decide (relativeArea > 0.6)
  else false

/-- The final value of the `shouldShow` flag for one shape: `true` initially,
cleared by whichever of the two sequential rule blocks fires. -/
def shouldShow (zoom : ℚ) (info : RectInfo) : Bool :=
  !(smallHide zoom info.latSpan info.lonSpan || bigHide zoom info.relativeArea)

/-- Outcome of the planner for one shape: visible and brought to front,
visible and sent to back, or hidden (opacity zeroed). -/
inductive Paint where
  | front
  | back
  | hidden
deriving DecidableEq, Repr

/-- The `rectanglesWithSize.forEach((item, index) => ...)` loop of lines
222-275: `index` is the position in the full sorted array and `n` its total
length; a visible shape is brought to front when
`index < rectanglesWithSize.length / 2` (i.e. `2 * index < n`) and sent to
back otherwise. -/
def paintShapes (zoom : ℚ) (n : ℕ) : ℕ → List RectInfo → List (BBox × Paint)
  | _, [] => []
  | index, info :: rest =>
    (info.rect,
      if shouldShow zoom info then
        if 2 * index < n then Paint.front else Paint.back
      else Paint.hidden) :: paintShapes zoom n (index + 1) rest

/-- `updateRegionVisibility` (script.js lines 185-276): compute sizes, sort
ascending by raw area, then apply the visibility rules and z-ordering. -/
def updateRegionVisibility (viewport : BBox) (zoom : ℚ) (shapes : List BBox) :
    List (BBox × Paint) :=
  let sorted := sortByAreaAsc (shapes.map (mkRectInfo viewport))
  paintShapes zoom sorted.length 0 sorted

/-- Modelled from the spec's words for the paint-order claim: among the shapes
classified visible, listed in ascending raw-area order, the smaller half
(positions below half the number of *visible* shapes) is painted in front and
the larger half is sent to back. -/
def visibleHalfFrontClaim (viewport : BBox) (zoom : ℚ) (shapes : List BBox) : Prop :=
  let visible := (updateRegionVisibility viewport zoom shapes).filter
    (fun p => p.2 ≠ Paint.hidden)
  ∀ i, (hi : i < visible.length) →
    (visible.get ⟨i, hi⟩).2 =
      (if 2 * i < visible.length then Paint.front else Paint.back)

/-! ## Levenshtein distance (`levenshteinDistance`, script.js lines 790-810 /
part_000 lines 1100-1120) -/

/-- The inner `for (i = 1; i <= str1.length; i++)` loop computing row `j` of
the matrix.  It walks the remaining characters of `str1` together with the
corresponding window of the previous row (`p0 = matrix[j-1][i-1]`,
`p1 = matrix[j-1][i]`), threading the value to the left
(`left = matrix[j][i-1]`). -/
def levRowAux (c2 : Char) : List Char → List ℕ → ℕ → List ℕ
  | c :: cs, p0 :: p1 :: ps, left =>
    let cost := if c = c2 then 0 else 1
    let cur := min (min (left + 1) (p1 + 1)) (p0 + cost)
    cur :: levRowAux c2 cs (p1 :: ps) cur
  | _, _, _ => []

/-- The outer `for (j = 1; j <= str2.length; j++)` loop: each iteration turns
row `j-1` into row `j`, whose first entry is `matrix[j][0] = j`. -/
def levRows (s1 : List Char) : List Char → List ℕ → ℕ → List ℕ
  | [], prev, _ => prev
  | c2 :: cs, prev, j => levRows s1 cs (j :: levRowAux c2 s1 prev j) (j + 1)

/-- `levenshteinDistance(str1, str2)`: row 0 is `[0, 1, ..., |str1|]`
(`matrix[0][i] = i`), the rows are filled in order, and the answer is
`matrix[str2.length][str1.length]`, the last entry of the last row. -/
def levenshteinDistance (str1 str2 : String) : ℕ :=
  (levRows str1.toList str2.toList (List.range (str1.toList.length + 1)) 1).getLastD 0

/-- The standard Levenshtein dynamic program from the spec's words: a
`(|s1|+1) × (|s2|+1)` table `d i j` of edit costs between the first `i`
characters of `s1` and the first `j` characters of `s2`, with unit-cost
insertion, deletion and substitution.  This is the spec-side reference
definition the code is compared against. -/
def levSpec (s1 s2 : List Char) : ℕ → ℕ → ℕ
  | i, 0 => i
  | 0, j + 1 => j + 1
  | i + 1, j + 1 =>
    min (min (levSpec s1 s2 (i + 1) j + 1) (levSpec s1 s2 i (j + 1) + 1))
      (levSpec s1 s2 i j + (if s1.getD i ' ' = s2.getD j ' ' then 0 else 1))
termination_by i j => i + j
decreasing_by all_goals simp_arith

/-! ## Lemmas and claim theorems -/

lemma smallHide_iff (z la lo : ℚ) :
    smallHide z la lo = true ↔
      (z < 9 ∧ (la < 0.1 ∨ lo < 0.1)) ∨
      (9 ≤ z ∧ z < 11 ∧ (la < 0.05 ∨ lo < 0.05)) ∨
      (11 ≤ z ∧ z < 13 ∧ (la < 0.01 ∨ lo < 0.01)) := by
  unfold smallHide
  split_ifs with h1 h2 h3
  · simp only [Bool.or_eq_true, decide_eq_true_eq]
    constructor
    · intro h
      exact Or.inl ⟨h1, h⟩
    · rintro (⟨_, h⟩ | ⟨h9, _, _⟩ | ⟨h11, _, _⟩)
      · exact h
      · linarith
      · linarith
  · simp only [Bool.or_eq_true, decide_eq_true_eq]
    constructor
    · intro h
      exact Or.inr (Or.inl ⟨le_of_not_lt h1, h2, h⟩)
    · rintro (⟨h9, _⟩ | ⟨_, _, h⟩ | ⟨h11, _, _⟩)
      · exact absurd h9 h1
      · exact h
      · linarith
  · simp only [Bool.or_eq_true, decide_eq_true_eq]
    constructor
    · intro h
      exact Or.inr (Or.inr ⟨le_of_not_lt h2, h3, h⟩)
    · rintro (⟨h9, _⟩ | ⟨_, h11, _⟩ | ⟨_, _, h⟩)
      · exact absurd h9 h1
      · exact absurd h11 h2
      · exact h
  · simp only [Bool.false_eq_true, false_iff]
    rintro (⟨h9, _⟩ | ⟨_, h11, _⟩ | ⟨_, h13, _⟩)
    · exact h1 h9
    · exact h2 h11
    · exact h3 h13

lemma bigHide_iff (z r : ℚ) :
    bigHide z r = true ↔
      (z > 13 ∧ r > 0.4) ∨ (11 < z ∧ z ≤ 13 ∧ r > 0.6) := by
  unfold bigHide
  split_ifs with h1 h2
  · simp only [decide_eq_true_eq]
    constructor
    · intro h
      exact Or.inl ⟨h1, h⟩
    · rintro (⟨_, h⟩ | ⟨_, h13, _⟩)
      · exact h
      · linarith
  · simp only [decide_eq_true_eq]
    constructor
    · intro h
      exact Or.inr ⟨h2, le_of_not_lt h1, h⟩
    · rintro (⟨h13, _⟩ | ⟨_, _, h⟩)
      · exact absurd h13 h1
      · exact h
  · simp only [Bool.false_eq_true, false_iff]
    rintro (⟨h13, _⟩ | ⟨h11, _, _⟩)
    · exact h1 h13
    · exact h2 h11

/-- C6: the visibility classification follows the zoom bands exactly:
at zoom < 9 a shape with a latitude or longitude span below 0.1° is hidden; at
9 ≤ zoom < 11 the threshold is 0.05; at 11 ≤ zoom < 13 it is 0.01; at
zoom > 13 shapes with `relativeArea > 0.4` are additionally hidden; at
11 < zoom ≤ 13 shapes with `relativeArea > 0.6` are additionally hidden.  In
particular a 0.05°-latitude-span shape is hidden at zoom 8, and a shape with
`relativeArea = 0.5` is hidden at zoom 14. -/
theorem C6_visibility_zoom_bands :
    (∀ (zoom : ℚ) (info : RectInfo),
      shouldShow zoom info = false ↔
        ((zoom < 9 ∧ (info.latSpan < 0.1 ∨ info.lonSpan < 0.1)) ∨
         (9 ≤ zoom ∧ zoom < 11 ∧ (info.latSpan < 0.05 ∨ info.lonSpan < 0.05)) ∨
         (11 ≤ zoom ∧ zoom < 13 ∧ (info.latSpan < 0.01 ∨ info.lonSpan < 0.01)) ∨
         (zoom > 13 ∧ info.relativeArea > 0.4) ∨
         (11 < zoom ∧ zoom ≤ 13 ∧ info.relativeArea > 0.6))) ∧
    (∀ (rect : BBox) (area rel lon : ℚ),
      shouldShow 8 ⟨rect, area, rel, 0.05, lon⟩ = false) ∧
    (∀ (rect : BBox) (area la lo : ℚ),
      shouldShow 14 ⟨rect, area, 0.5, la, lo⟩ = false) := by
  have main : ∀ (zoom : ℚ) (info : RectInfo),
      shouldShow zoom info = false ↔
        ((zoom < 9 ∧ (info.latSpan < 0.1 ∨ info.lonSpan < 0.1)) ∨
         (9 ≤ zoom ∧ zoom < 11 ∧ (info.latSpan < 0.05 ∨ info.lonSpan < 0.05)) ∨
         (11 ≤ zoom ∧ zoom < 13 ∧ (info.latSpan < 0.01 ∨ info.lonSpan < 0.01)) ∨
         (zoom > 13 ∧ info.relativeArea > 0.4) ∨
         (11 < zoom ∧ zoom ≤ 13 ∧ info.relativeArea > 0.6)) := by
    intro zoom info
    rw [shouldShow, Bool.not_eq_false', Bool.or_eq_true, smallHide_iff, bigHide_iff]
    exact or_assoc.trans (by rw [or_assoc])
  refine ⟨main, ?_, ?_⟩
  · intro rect area rel lon
    rw [main]
    norm_num
  · intro rect area la lo
    rw [main]
    norm_num

lemma regionsOverlap_iff (a b : BBox) :
    regionsOverlap a b = true ↔
      (a.south ≤ b.north ∧ b.south ≤ a.north ∧ a.west ≤ b.east ∧ b.west ≤ a.east) := by
  simp only [regionsOverlap, Bool.not_eq_true', Bool.or_eq_false_iff,
    decide_eq_false_iff_not, not_lt]
  tauto

/-- C8: for regions satisfying the bounds invariant, `regionsOverlap` is
symmetric and reflexive, and regions touching on an edge (`a.north = b.south`
with no separation on the east/west axis) count as overlapping. -/
theorem C8_overlap_symm_refl_touching (a b : BBox)
    (ha : a.south ≤ a.north ∧ a.west ≤ a.east)
    (hb : b.south ≤ b.north ∧ b.west ≤ b.east) :
    regionsOverlap a b = regionsOverlap b a ∧
    regionsOverlap a a = true ∧
    (a.north = b.south → ¬(a.west > b.east) → ¬(a.east < b.west) →
      regionsOverlap a b = true) := by
  refine ⟨?_, ?_, ?_⟩
  · rw [Bool.eq_iff_iff, regionsOverlap_iff, regionsOverlap_iff]
    tauto
  · rw [regionsOverlap_iff]
    exact ⟨ha.1, ha.1, ha.2, ha.2⟩
  · intro hns hw he
    rw [not_lt] at hw he
    rw [regionsOverlap_iff]
    refine ⟨?_, ?_, hw, he⟩
    · calc a.south ≤ a.north := ha.1
        _ = b.south := hns
        _ ≤ b.north := hb.1
    · exact le_of_eq hns.symm

/-- Witness for C8 at concrete regions: `a = ⟨2,1,3,0⟩` and `b = ⟨3,2,4,1⟩`
touch on the edge `a.north = b.south = 2` and overlap. -/
theorem C8_witness :
    regionsOverlap ⟨2, 1, 3, 0⟩ ⟨3, 2, 4, 1⟩ = true :=
  (C8_overlap_symm_refl_touching ⟨2, 1, 3, 0⟩ ⟨3, 2, 4, 1⟩
    (by norm_num) (by norm_num)).2.2 (by norm_num) (by norm_num) (by norm_num)

/-- C7: ingesting two messages with the same location name and identical
bounds (starting from a cleared store) yields exactly one Region entity with
both messages on its list; if the second message's bounds differ on any
value, two distinct entities result.  Bounds are compared by exact equality. -/
theorem C7_aggregator_dedup (m1 m2 : Msg) (name : String) (b b' : BBox) :
    (ingest (ingest [] m1 name b) m2 name b =
      [{ name := name, bounds := b, messages := [m1, m2],
         center := ((b.north + b.south) / 2, (b.east + b.west) / 2) }]) ∧
    (b ≠ b' →
      ingest (ingest [] m1 name b) m2 name b' =
        [{ name := name, bounds := b, messages := [m1],
           center := ((b.north + b.south) / 2, (b.east + b.west) / 2) },
         { name := name, bounds := b', messages := [m2],
           center := ((b'.north + b'.south) / 2, (b'.east + b'.west) / 2) }]) := by
  constructor
  · simp [ingest]
  · intro hne
    simp [ingest, hne]

/-- Witness for C7 at concrete inputs. -/
theorem C7_witness :
    (ingest (ingest []
        { id := none, text := "t1", date := "d1", channel := "c1", locations := [] }
        "gaza" ⟨32, 31, 35, 34⟩)
      { id := none, text := "t2", date := "d2", channel := "c2", locations := [] }
      "gaza" ⟨32, 31, 35, 30⟩).length = 2 := by
  rw [(C7_aggregator_dedup
    { id := none, text := "t1", date := "d1", channel := "c1", locations := [] }
    { id := none, text := "t2", date := "d2", channel := "c2", locations := [] }
    "gaza" ⟨32, 31, 35, 34⟩ ⟨32, 31, 35, 30⟩).2 (by decide)]
  rfl

/-- C3 counterexample: a cache entry with inverted bounds
(`north = 0 < south = 1`, `east = 0 < west = 1`) is NOT skipped by the rebuild
pass: a Region entity is constructed from it and the message is associated,
contrary to the claim. -/
theorem C3_counterexample :
    refreshRegions [("badbox", some (.box ⟨0, 1, 0, 1⟩))]
        [{ id := none, text := "t", date := "d", channel := "c",
           locations := [LocVal.str "badbox"] }] =
      [{ name := "badbox", bounds := ⟨0, 1, 0, 1⟩,
         messages := [{ id := none, text := "t", date := "d", channel := "c",
                        locations := [LocVal.str "badbox"] }],
         center := (((0 : ℚ) + 1) / 2, ((0 : ℚ) + 1) / 2) }] ∧
    (0 : ℚ) < 1 := by
  constructor
  · rfl
  · norm_num

/-- C3 amended: ingestion performs no bounds-validity check; a cache entry
whose bounds satisfy `north < south` or `east < west` is ingested exactly like
a valid one — some Region entity with those bounds carries the message
afterwards. -/
theorem C3_amended_no_bounds_validation (store : List Region) (msg : Msg)
    (name : String) (b : BBox) (h : b.north < b.south ∨ b.east < b.west) :
    ∃ r ∈ ingest store msg name b, r.bounds = b ∧ msg ∈ r.messages := by
  clear h
  induction store with
  | nil =>
    exact ⟨_, List.mem_singleton_self _, rfl, List.mem_singleton_self _⟩
  | cons r rs ih =>
    rw [ingest]
    split_ifs with hc
    · refine ⟨_, List.mem_cons_self _ _, hc.2, ?_⟩
      simp
    · obtain ⟨r', hr', hb', hm'⟩ := ih
      exact ⟨r', List.mem_cons_of_mem _ hr', hb', hm'⟩

/-- Witness for C3's amended theorem at a concrete invalid-bounds input. -/
theorem C3_amended_witness :
    ∃ r ∈ ingest []
        { id := none, text := "t", date := "d", channel := "c", locations := [] }
        "x" ⟨0, 1, 0, 1⟩,
      r.bounds = ⟨0, 1, 0, 1⟩ ∧
      ({ id := none, text := "t", date := "d", channel := "c",
         locations := [] } : Msg) ∈ r.messages :=
  C3_amended_no_bounds_validation []
    { id := none, text := "t", date := "d", channel := "c", locations := [] }
    "x" ⟨0, 1, 0, 1⟩ (Or.inl (by norm_num))

lemma ingest_centerInv {store : List Region} (msg : Msg) (name : String)
    (b : BBox) (h : ∀ r ∈ store, centerInv r) :
    ∀ r ∈ ingest store msg name b, centerInv r := by
  induction store with
  | nil =>
    intro r hr
    rw [ingest, List.mem_singleton] at hr
    subst hr
    rfl
  | cons x xs ih =>
    intro r hr
    rw [ingest] at hr
    split_ifs at hr with hc
    · rcases List.mem_cons.mp hr with h1 | h2
      · subst h1
        exact h x (List.mem_cons_self _ _)
      · exact h r (List.mem_cons_of_mem _ h2)
    · rcases List.mem_cons.mp hr with h1 | h2
      · subst h1
        exact h r (List.mem_cons_self _ _)
      · exact ih (fun r' hr' => h r' (List.mem_cons_of_mem _ hr')) r h2

lemma processLocation_centerInv {store : List Region} (cache : Cache)
    (msg : Msg) (l : LocVal) (h : ∀ r ∈ store, centerInv r) :
    ∀ r ∈ processLocation cache store msg l, centerInv r := by
  cases l with
  | nonString => exact h
  | str s =>
    rw [processLocation]
    split_ifs with h1 h2
    · exact h
    · exact h
    · rcases hc : cacheLookup cache (normalizeKey s) with _ | ⟨_ | c⟩
      · simpa [hc] using h
      · simpa [hc] using h
      · cases c with
        | pt lat lon => simpa [hc] using h
        | box b => simpa [hc] using ingest_centerInv msg s b h
        | other => simpa [hc] using h

lemma foldl_centerInv {α : Type} (f : List Region → α → List Region)
    (hf : ∀ s a, (∀ r ∈ s, centerInv r) → ∀ r ∈ f s a, centerInv r) :
    ∀ (l : List α) (s : List Region), (∀ r ∈ s, centerInv r) →
      ∀ r ∈ l.foldl f s, centerInv r := by
  intro l
  induction l with
  | nil => intro s hs; simpa using hs
  | cons a as ih =>
    intro s hs
    rw [List.foldl_cons]
    exact ih (f s a) (hf s a hs)

/-- C10: every Region entity produced by the rebuild pass stores as center the
arithmetic midpoint of its bounds. -/
theorem C10_center_is_midpoint (cache : Cache) (msgs : List Msg) :
    ∀ r ∈ refreshRegions cache msgs,
      r.center = ((r.bounds.north + r.bounds.south) / 2,
                  (r.bounds.east + r.bounds.west) / 2) := by
  refine foldl_centerInv _ ?_ msgs [] (by simp)
  intro s m hs
  split_ifs
  · exact hs
  · exact foldl_centerInv _ (fun s' l hs' => processLocation_centerInv cache m l hs')
      m.locations s hs

/-- Witness for C10 at a concrete rebuild. -/
theorem C10_witness :
    ({ name := "gaza", bounds := ⟨32, 31, 35, 34⟩,
       messages := [{ id := none, text := "t", date := "d", channel := "c",
                      locations := [LocVal.str "gaza"] }],
       center := (((32 : ℚ) + 31) / 2, ((35 : ℚ) + 34) / 2) } : Region).center =
      ((((32 : ℚ) + 31) / 2, ((35 : ℚ) + 34) / 2) : ℚ × ℚ) := by
  refine C10_center_is_midpoint [("gaza", some (.box ⟨32, 31, 35, 34⟩))]
    [{ id := none, text := "t", date := "d", channel := "c",
       locations := [LocVal.str "gaza"] }] _ ?_
  have hev : refreshRegions [("gaza", some (.box ⟨32, 31, 35, 34⟩))]
      [{ id := none, text := "t", date := "d", channel := "c",
         locations := [LocVal.str "gaza"] }] =
      [{ name := "gaza", bounds := ⟨32, 31, 35, 34⟩,
         messages := [{ id := none, text := "t", date := "d", channel := "c",
                        locations := [LocVal.str "gaza"] }],
         center := (((32 : ℚ) + 31) / 2, ((35 : ℚ) + 34) / 2) }] := by rfl
  rw [hev]
  exact List.mem_singleton_self _

/-- The part_000 resolver satisfies the normalized-key iff: a lookup hits
exactly when some raw cache entry's normalized key equals the normalized
query. -/
lemma lookupPart000_isSome_iff (raw : Cache) (location : String) :
    (lookupPart000 raw location).isSome ↔
      ∃ p ∈ raw, normalizeKey p.1 = normalizeKey location := by
  rw [lookupPart000, cacheLookup, Option.isSome_map']
  rw [List.find?_isSome]
  constructor
  · rintro ⟨p, hp, hk⟩
    rw [List.mem_reverse, buildCachePart000, List.mem_map] at hp
    obtain ⟨q, hq, rfl⟩ := hp
    exact ⟨q, hq, of_decide_eq_true hk⟩
  · rintro ⟨p, hp, hk⟩
    refine ⟨(normalizeKey p.1, p.2), ?_, by simpa using hk⟩
    rw [List.mem_reverse, buildCachePart000, List.mem_map]
    exact ⟨p, hp, rfl⟩

/-- C1: the script.js variant stores cache keys raw (initMap lines 64-65), so
the lookup of `"Gaza City"` misses even though the cache holds an entry whose
key normalizes to the same string `"gaza city"`; the part_000 variant, which
normalizes cache keys at load, finds it.  This contradicts the claim that a
normalized-key match always produces a hit. -/
theorem C1_script_lookup_misses_unnormalized_key :
    lookupScript [("Gaza City", some (.pt 31.5 34.47))] "Gaza City" = none ∧
    (∃ p ∈ ([("Gaza City", some (.pt 31.5 34.47))] : Cache),
      normalizeKey p.1 = normalizeKey "Gaza City") ∧
    lookupPart000 [("Gaza City", some (.pt 31.5 34.47))] "Gaza City" =
      some (some (.pt 31.5 34.47)) := by
  refine ⟨by rfl, ⟨("Gaza City", some (.pt 31.5 34.47)), by simp, by rfl⟩, by rfl⟩

/-- C2: `findMessagesInRegion` has no `typeof` guard on location entries, so a
message whose locations contain a non-string value makes `location.trim()`
throw, aborting the query instead of skipping the entry — even though a later
message in the list has a matching location.  The rebuild pass
(`refreshMarkers`), which does guard, processes the same list normally. -/
theorem C2_findMessages_throws_on_nonstring_location :
    findMessagesInRegion (fun _ => 0) [("p", some (.pt 31.5 34.5))] ⟨32, 31, 35, 34⟩
        [{ id := none, text := "t1", date := "d1", channel := "c1",
           locations := [LocVal.nonString] },
         { id := none, text := "t2", date := "d2", channel := "c2",
           locations := [LocVal.str "p"] }] = .error () ∧
    refreshRegions [("p", some (.pt 31.5 34.5))]
        [{ id := none, text := "t1", date := "d1", channel := "c1",
           locations := [LocVal.nonString] },
         { id := none, text := "t2", date := "d2", channel := "c2",
           locations := [LocVal.str "p"] }] = [] := by
  exact ⟨rfl, rfl⟩

lemma areaInsert_length (x : RectInfo) (l : List RectInfo) :
    (areaInsert x l).length = l.length + 1 := by
  induction l with
  | nil => rfl
  | cons y ys ih =>
    rw [areaInsert]
    split_ifs
    · rfl
    · simp [ih]

lemma sortByAreaAsc_length (l : List RectInfo) :
    (sortByAreaAsc l).length = l.length := by
  induction l with
  | nil => rfl
  | cons x xs ih =>
    rw [sortByAreaAsc, areaInsert_length, ih, List.length_cons]

lemma paintShapes_getD (zoom : ℚ) (n : ℕ) :
    ∀ (l : List RectInfo) (i0 i : ℕ), i < l.length →
      (paintShapes zoom n i0 l).getD i (⟨0, 0, 0, 0⟩, Paint.hidden) =
        ((l.getD i ⟨⟨0, 0, 0, 0⟩, 0, 0, 0, 0⟩).rect,
          if shouldShow zoom (l.getD i ⟨⟨0, 0, 0, 0⟩, 0, 0, 0, 0⟩) = true then
            (if 2 * (i0 + i) < n then Paint.front else Paint.back)
          else Paint.hidden) := by
  intro l
  induction l with
  | nil =>
    intro i0 i hi
    simp at hi
  | cons x xs ih =>
    intro i0 i hi
    cases i with
    | zero =>
      simp [paintShapes]
    | succ i =>
      rw [paintShapes]
      have h1 : i0 + 1 + i = i0 + (i + 1) := by omega
      rw [List.getD_cons_succ, List.getD_cons_succ,
        ih (i0 + 1) i (by simpa using Nat.lt_of_succ_lt_succ hi), h1]

/-- C5 amended: the split into front and back halves is taken over the FULL
ascending-area-sorted shape list (hidden shapes included), not over the
visible shapes alone: the shape at position `i` of the full sorted order is
brought to front iff it is visible and `i` is below half the TOTAL shape
count, and sent to back iff it is visible and `i` is in the upper half. -/
theorem C5_front_half_over_all_shapes (viewport : BBox) (zoom : ℚ)
    (shapes : List BBox) (i : ℕ) (hi : i < shapes.length) :
    (updateRegionVisibility viewport zoom shapes).getD i (⟨0, 0, 0, 0⟩, Paint.hidden) =
      (((sortByAreaAsc (shapes.map (mkRectInfo viewport))).getD i
          ⟨⟨0, 0, 0, 0⟩, 0, 0, 0, 0⟩).rect,
        if shouldShow zoom ((sortByAreaAsc (shapes.map (mkRectInfo viewport))).getD i
            ⟨⟨0, 0, 0, 0⟩, 0, 0, 0, 0⟩) = true then
          (if 2 * i < shapes.length then Paint.front else Paint.back)
        else Paint.hidden) := by
  have hlen : (sortByAreaAsc (shapes.map (mkRectInfo viewport))).length = shapes.length := by
    rw [sortByAreaAsc_length, List.length_map]
  rw [updateRegionVisibility]
  rw [paintShapes_getD zoom _ _ 0 i (by rw [hlen]; exact hi)]
  rw [Nat.zero_add, hlen]

/-- Witness for the C5 amended theorem at the concrete four-shape input: the
third-smallest shape (index 2 of 4) is evaluated by the planner. -/
theorem C5_front_half_witness :
    (updateRegionVisibility ⟨40, 30, 40, 30⟩ 8
        [⟨31, 31, 31, 31⟩, ⟨32, 32, 32, 32⟩, ⟨33, 32, 33, 32⟩,
         ⟨36, 34, 36, 34⟩]).getD 2 (⟨0, 0, 0, 0⟩, Paint.hidden) =
      (((sortByAreaAsc
            (([⟨31, 31, 31, 31⟩, ⟨32, 32, 32, 32⟩, ⟨33, 32, 33, 32⟩,
               ⟨36, 34, 36, 34⟩] : List BBox).map
              (mkRectInfo ⟨40, 30, 40, 30⟩))).getD 2
          ⟨⟨0, 0, 0, 0⟩, 0, 0, 0, 0⟩).rect,
        if shouldShow 8 ((sortByAreaAsc
            (([⟨31, 31, 31, 31⟩, ⟨32, 32, 32, 32⟩, ⟨33, 32, 33, 32⟩,
               ⟨36, 34, 36, 34⟩] : List BBox).map
              (mkRectInfo ⟨40, 30, 40, 30⟩))).getD 2
            ⟨⟨0, 0, 0, 0⟩, 0, 0, 0, 0⟩) = true then
          (if 2 * 2 < ([⟨31, 31, 31, 31⟩, ⟨32, 32, 32, 32⟩, ⟨33, 32, 33, 32⟩,
               ⟨36, 34, 36, 34⟩] : List BBox).length then Paint.front else Paint.back)
        else Paint.hidden) :=
  C5_front_half_over_all_shapes ⟨40, 30, 40, 30⟩ 8
    [⟨31, 31, 31, 31⟩, ⟨32, 32, 32, 32⟩, ⟨33, 32, 33, 32⟩, ⟨36, 34, 36, 34⟩]
    2 (by norm_num)

/-- C5 counterexample: at zoom 8 with viewport spans of 10°, of four shapes
the two degenerate ones are hidden and the two visible ones sit at indices 2
and 3 of the full sorted order, so BOTH are sent to back — but the claim
requires the smaller of the two visible shapes (the first of the two) to be
painted in front. -/
theorem C5_counterexample :
    ¬ visibleHalfFrontClaim ⟨40, 30, 40, 30⟩ 8
        [⟨31, 31, 31, 31⟩, ⟨32, 32, 32, 32⟩, ⟨33, 32, 33, 32⟩, ⟨36, 34, 36, 34⟩] := by
  intro h
  have hres : updateRegionVisibility ⟨40, 30, 40, 30⟩ 8
      [⟨31, 31, 31, 31⟩, ⟨32, 32, 32, 32⟩, ⟨33, 32, 33, 32⟩, ⟨36, 34, 36, 34⟩] =
      [(⟨31, 31, 31, 31⟩, Paint.hidden), (⟨32, 32, 32, 32⟩, Paint.hidden),
       (⟨33, 32, 33, 32⟩, Paint.back), (⟨36, 34, 36, 34⟩, Paint.back)] := by
    norm_num [updateRegionVisibility, sortByAreaAsc, areaInsert, mkRectInfo,
      paintShapes, shouldShow, smallHide, bigHide]
  rw [visibleHalfFrontClaim, hres] at h
  exact absurd (h 0 (by decide)) (by decide)

lemma levSpec_zero_right (s1 s2 : List Char) (i : ℕ) : levSpec s1 s2 i 0 = i := by
  cases i <;> simp [levSpec]

lemma levSpec_zero_left (s1 s2 : List Char) (j : ℕ) :
    levSpec s1 s2 0 (j + 1) = j + 1 := by
  simp [levSpec]

lemma levSpec_succ_succ (s1 s2 : List Char) (i j : ℕ) :
    levSpec s1 s2 (i + 1) (j + 1) =
      min (min (levSpec s1 s2 (i + 1) j + 1) (levSpec s1 s2 i (j + 1) + 1))
        (levSpec s1 s2 i j + (if s1.getD i ' ' = s2.getD j ' ' then 0 else 1)) := by
  simp [levSpec]

lemma levRowAux_spec (s1 s2 : List Char) (j : ℕ) :
    ∀ (d k : ℕ), k + d = s1.length →
      levRowAux (s2.getD j ' ') (s1.drop k)
          ((List.range' k (d + 1)).map (fun i => levSpec s1 s2 i j))
          (levSpec s1 s2 k (j + 1)) =
        (List.range' (k + 1) d).map (fun i => levSpec s1 s2 i (j + 1)) := by
  intro d
  induction d with
  | zero =>
    intro k hk
    rw [Nat.add_zero] at hk
    subst hk
    rw [List.drop_length]
    rfl
  | succ d ih =>
    intro k hk
    have hklt : k < s1.length := by omega
    rw [List.drop_eq_getElem_cons hklt]
    rw [List.range'_succ k (d + 1) 1, List.range'_succ (k + 1) d 1, List.map_cons,
      List.map_cons]
    rw [levRowAux]
    have hcur :
        min (min (levSpec s1 s2 k (j + 1) + 1) (levSpec s1 s2 (k + 1) j + 1))
            (levSpec s1 s2 k j +
              if s1[k] = s2.getD j ' ' then 0 else 1) =
          levSpec s1 s2 (k + 1) (j + 1) := by
      rw [levSpec_succ_succ]
      rw [Nat.min_comm (levSpec s1 s2 (k + 1) j + 1) (levSpec s1 s2 k (j + 1) + 1)]
      rw [List.getD_eq_getElem s1 ' ' hklt]
    rw [hcur]
    have hrest := ih (k + 1) (by omega)
    rw [List.range'_succ (k + 1) d 1, List.map_cons] at hrest
    rw [hrest]
    simp only [List.map_cons]

lemma levRows_spec (s1 s2 : List Char) :
    ∀ (m j : ℕ), j + m = s2.length →
      levRows s1 (s2.drop j)
          ((List.range (s1.length + 1)).map (fun i => levSpec s1 s2 i j)) (j + 1) =
        (List.range (s1.length + 1)).map (fun i => levSpec s1 s2 i s2.length) := by
  intro m
  induction m with
  | zero =>
    intro j hj
    rw [Nat.add_zero] at hj
    subst hj
    rw [List.drop_length]
    rfl
  | succ m ih =>
    intro j hj
    have hjlt : j < s2.length := by omega
    rw [List.drop_eq_getElem_cons hjlt]
    rw [levRows]
    have hrow : (j + 1) :: levRowAux s2[j] s1
        ((List.range (s1.length + 1)).map (fun i => levSpec s1 s2 i j)) (j + 1) =
        (List.range (s1.length + 1)).map (fun i => levSpec s1 s2 i (j + 1)) := by
      have h0 := levRowAux_spec s1 s2 j s1.length 0 (by omega)
      rw [List.drop_zero, Nat.zero_add, levSpec_zero_left] at h0
      rw [← List.getD_eq_getElem s2 ' ' hjlt]
      rw [List.range_eq_range' (s1.length + 1)]
      rw [h0]
      rw [List.range'_succ 0 s1.length 1]
      simp [levSpec_zero_left]
    rw [hrow]
    exact ih (j + 1) (by omega)

/-- C9: `levenshteinDistance` computes exactly the standard unit-cost
Levenshtein dynamic program over the `(|s1|+1) × (|s2|+1)` table (`levSpec`),
and in particular `levenshteinDistance "kitten" "sitting" = 3`. -/
theorem C9_levenshtein_correct :
    (∀ str1 str2 : String,
      levenshteinDistance str1 str2 =
        levSpec str1.toList str2.toList str1.toList.length str2.toList.length) ∧
    levenshteinDistance "kitten" "sitting" = 3 := by
  constructor
  · intro str1 str2
    rw [levenshteinDistance]
    have hrow0 : List.range (str1.toList.length + 1) =
        (List.range (str1.toList.length + 1)).map
          (fun i => levSpec str1.toList str2.toList i 0) := by
      conv_lhs => rw [← List.map_id (List.range (str1.toList.length + 1))]
      exact List.map_congr_left (fun a _ => (levSpec_zero_right _ _ a).symm)
    have hmain := levRows_spec str1.toList str2.toList str2.toList.length 0 (by omega)
    rw [List.drop_zero, ← hrow0, Nat.zero_add] at hmain
    rw [hmain]
    rw [List.range_succ str1.toList.length, List.map_append]
    simp only [List.map_cons, List.map_nil]
    rw [List.getLastD_concat]
  · decide

lemma processLocs_included (cache : Cache) (bounds : BBox) (msg : Msg) :
    ∀ (ls : List LocVal) (acc : List Msg × List String),
      processLocs cache bounds msg ls true acc = .ok acc := by
  intro ls
  induction ls with
  | nil => intro acc; rfl
  | cons l ls ih =>
    intro acc
    rw [processLocs]
    simp only [if_pos rfl]
    exact ih acc

lemma processLocs_strings (cache : Cache) (bounds : BBox) (msg : Msg) :
    ∀ (ls : List LocVal) (acc : List Msg × List String),
      (∀ l ∈ ls, ∃ s, l = LocVal.str s) →
      processLocs cache bounds msg ls false acc =
        .ok (if ls.any (locMatches cache bounds) = true ∧ keyOf msg ∉ acc.2
          then (acc.1 ++ [msg], acc.2 ++ [keyOf msg])
          else acc) := by
  intro ls
  induction ls with
  | nil =>
    intro acc _
    simp [processLocs]
  | cons l ls ih =>
    intro acc hstr
    obtain ⟨s, rfl⟩ := hstr l (List.mem_cons_self _ _)
    rcases hc : cacheLookup cache (normalizeKey s) with _ | ⟨_ | c⟩
    · rw [processLocs]
      simp only [Bool.false_eq_true, if_false, locKeyE, hc]
      rw [ih acc (fun l hl => hstr l (List.mem_cons_of_mem _ hl))]
      have hl : locMatches cache bounds (LocVal.str s) = false := by
        simp [locMatches, hc]
      simp [List.any_cons, hl]
    · rw [processLocs]
      simp only [Bool.false_eq_true, if_false, locKeyE, hc]
      rw [ih acc (fun l hl => hstr l (List.mem_cons_of_mem _ hl))]
      have hl : locMatches cache bounds (LocVal.str s) = false := by
        simp [locMatches, hc]
      simp [List.any_cons, hl]
    · rw [processLocs]
      simp only [Bool.false_eq_true, if_false, locKeyE, hc]
      by_cases hin : isLocationInBounds c bounds = true
      · have hl : locMatches cache bounds (LocVal.str s) = true := by
          simp [locMatches, hc, hin]
        by_cases hk : keyOf msg ∈ acc.2
        · rw [if_pos hin, if_pos hk]
          rw [ih acc (fun l hl => hstr l (List.mem_cons_of_mem _ hl))]
          rw [if_neg (by rintro ⟨-, hnk⟩; exact hnk hk),
            if_neg (by rintro ⟨-, hnk⟩; exact hnk hk)]
        · rw [if_pos hin, if_neg hk]
          rw [processLocs_included]
          have hcond : (LocVal.str s :: ls).any (locMatches cache bounds) = true ∧
              keyOf msg ∉ acc.2 := by
            refine ⟨?_, hk⟩
            simp [List.any_cons, hl]
          rw [if_pos hcond]
      · have hl : locMatches cache bounds (LocVal.str s) = false := by
          simp only [locMatches, hc]
          exact Bool.of_not_eq_true hin
        rw [if_neg hin]
        rw [ih acc (fun l hl => hstr l (List.mem_cons_of_mem _ hl))]
        simp [List.any_cons, hl]

lemma collect_go (cache : Cache) (bounds : BBox) :
    ∀ (msgs : List Msg) (acc : List Msg × List String),
      (∀ m ∈ msgs, ∀ l ∈ m.locations, ∃ s, l = LocVal.str s) →
      acc.2 = acc.1.map keyOf →
      ∃ out : List Msg × List String,
        List.foldlM
          (fun acc msg =>
            if msg.locations = [] then Except.ok acc
            else processLocs cache bounds msg msg.locations false acc)
          acc msgs = .ok out ∧
        out.2 = out.1.map keyOf ∧
        ((acc.1.map keyOf).Nodup → (out.1.map keyOf).Nodup) ∧
        (∀ m : Msg, m ∈ out.1 ↔ m ∈ acc.1 ∨
          (keyOf m ∉ acc.2 ∧
            (msgs.filter (fun x =>
              msgMatches cache bounds x && (keyOf x == keyOf m))).head? = some m)) := by
  intro msgs
  induction msgs with
  | nil =>
    intro acc _ hinv
    refine ⟨acc, rfl, hinv, fun h => h, ?_⟩
    intro m
    simp
  | cons msg rest ih =>
    intro acc hstr hinv
    rw [List.foldlM_cons]
    by_cases hnil : msg.locations = []
    · rw [if_pos hnil]
      obtain ⟨out, hout, hinv', hnd, hmem⟩ :=
        ih acc (fun m hm => hstr m (List.mem_cons_of_mem _ hm)) hinv
      refine ⟨out, by simpa using hout, hinv', hnd, ?_⟩
      intro m
      rw [hmem m]
      have hmf : msgMatches cache bounds msg = false := by
        simp [msgMatches, hnil]
      simp [List.filter_cons, hmf]
    · rw [if_neg hnil]
      rw [processLocs_strings cache bounds msg msg.locations acc
        (hstr msg (List.mem_cons_self _ _))]
      by_cases hm : msg.locations.any (locMatches cache bounds) = true
      · have hmt : msgMatches cache bounds msg = true := hm
        by_cases hk : keyOf msg ∈ acc.2
        · rw [if_neg (by rintro ⟨-, h2⟩; exact h2 hk)]
          obtain ⟨out, hout, hinv', hnd, hmem⟩ :=
            ih acc (fun m hm => hstr m (List.mem_cons_of_mem _ hm)) hinv
          refine ⟨out, by simpa using hout, hinv', hnd, ?_⟩
          intro m
          rw [hmem m]
          by_cases hkey : keyOf msg = keyOf m
          · have hkm : keyOf m ∈ acc.2 := hkey ▸ hk
            simp [hkm]
          · have hbeq : (keyOf msg == keyOf m) = false := by
              simpa using hkey
            simp [List.filter_cons, hbeq]
        · rw [if_pos ⟨hm, hk⟩]
          have hinv' : (acc.1 ++ [msg], acc.2 ++ [keyOf msg]).2 =
              (acc.1 ++ [msg], acc.2 ++ [keyOf msg]).1.map keyOf := by
            simp [hinv]
          obtain ⟨out, hout, hinv2, hnd, hmem⟩ :=
            ih (acc.1 ++ [msg], acc.2 ++ [keyOf msg])
              (fun m hm => hstr m (List.mem_cons_of_mem _ hm)) hinv'
          refine ⟨out, by simpa using hout, hinv2, ?_, ?_⟩
          · intro hnd0
            apply hnd
            simp only [List.map_append, List.map_cons, List.map_nil]
            rw [List.nodup_append]
            refine ⟨hnd0, List.nodup_singleton _, ?_⟩
            intro a ha hb
            rw [List.mem_singleton] at hb
            subst hb
            rw [hinv] at hk
            exact hk ha
          · intro m
            rw [hmem m]
            by_cases hkey : keyOf m = keyOf msg
            · have hbeq : (keyOf msg == keyOf m) = true := by
                simp [hkey]
              have hnk : keyOf m ∉ acc.2 := hkey ▸ hk
              simp only [List.mem_append, List.mem_singleton, List.mem_cons,
                List.filter_cons, hmt, hbeq, Bool.true_and, if_pos,
                List.head?_cons, Option.some_inj]
              constructor
              · rintro ((h1 | h1 | h1) | ⟨h2, -⟩)
                · exact Or.inl h1
                · exact Or.inr ⟨hnk, h1.symm⟩
                · exact absurd h1 (List.not_mem_nil m)
                · exact absurd (Or.inr (Or.inl hkey)) h2
              · rintro (h1 | ⟨-, h2⟩)
                · exact Or.inl (Or.inl h1)
                · exact Or.inl (Or.inr (Or.inl h2.symm))
            · have hbeq : (keyOf msg == keyOf m) = false := by
                simpa using fun hcon => hkey hcon.symm
              simp only [List.mem_append, List.mem_singleton, List.mem_cons,
                List.filter_cons, hmt, hbeq, Bool.true_and, Bool.and_false,
                Bool.false_eq_true, if_false, List.not_mem_nil, or_false]
              constructor
              · rintro ((h1 | h1) | ⟨h2, h3⟩)
                · exact Or.inl h1
                · exact absurd (congrArg keyOf h1) hkey
                · exact Or.inr ⟨fun hc => h2 (Or.inl hc), h3⟩
              · rintro (h1 | ⟨h2, h3⟩)
                · exact Or.inl (Or.inl h1)
                · refine Or.inr ⟨?_, h3⟩
                  rintro (hc | hc)
                  · exact h2 hc
                  · exact hkey hc
      · rw [if_neg (by rintro ⟨h1, -⟩; exact hm h1)]
        obtain ⟨out, hout, hinv', hnd, hmem⟩ :=
          ih acc (fun m hm => hstr m (List.mem_cons_of_mem _ hm)) hinv
        refine ⟨out, by simpa using hout, hinv', hnd, ?_⟩
        intro m
        rw [hmem m]
        have hmf : msgMatches cache bounds msg = false := by
          rw [msgMatches]
          cases h2 : msg.locations.any (locMatches cache bounds)
          · rfl
          · exact absurd h2 hm
        simp [List.filter_cons, hmf]

lemma sortInsert_perm (pd : String → Int) (m : Msg) (l : List Msg) :
    List.Perm (sortInsert pd m l) (m :: l) := by
  induction l with
  | nil => rfl
  | cons x xs ih =>
    rw [sortInsert]
    split_ifs
    · rfl
    · exact (ih.cons x).trans (List.Perm.swap m x xs)

lemma sortByDateDesc_perm (pd : String → Int) (l : List Msg) :
    List.Perm (sortByDateDesc pd l) l := by
  induction l with
  | nil => rfl
  | cons x xs ih =>
    exact (sortInsert_perm pd x (sortByDateDesc pd xs)).trans (ih.cons x)

lemma sortInsert_pairwise (pd : String → Int) (m : Msg) (l : List Msg)
    (hl : l.Pairwise (fun a b => pd b.date ≤ pd a.date)) :
    (sortInsert pd m l).Pairwise (fun a b => pd b.date ≤ pd a.date) := by
  induction l with
  | nil => simp [sortInsert]
  | cons x xs ih =>
    rw [sortInsert]
    rw [List.pairwise_cons] at hl
    split_ifs with hle
    · rw [List.pairwise_cons]
      refine ⟨?_, List.pairwise_cons.mpr hl⟩
      intro b hb
      rcases List.mem_cons.mp hb with rfl | hb
      · exact hle
      · exact le_trans (hl.1 b hb) hle
    · rw [List.pairwise_cons]
      refine ⟨?_, ih hl.2⟩
      intro b hb
      have hb' := (sortInsert_perm pd m xs).mem_iff.mp hb
      rcases List.mem_cons.mp hb' with rfl | hb'
      · exact le_of_lt (lt_of_not_le hle)
      · exact hl.1 b hb'

lemma sortByDateDesc_pairwise (pd : String → Int) (l : List Msg) :
    (sortByDateDesc pd l).Pairwise (fun a b => pd b.date ≤ pd a.date) := by
  induction l with
  | nil => simp [sortByDateDesc]
  | cons x xs ih => exact sortInsert_pairwise pd x _ ih

lemma sortInsert_filter_pos (pd : String → Int) (t : Int) (m : Msg) (l : List Msg)
    (hm : pd m.date = t) :
    (sortInsert pd m l).filter (fun x => decide (pd x.date = t)) =
      m :: l.filter (fun x => decide (pd x.date = t)) := by
  induction l with
  | nil => simp [sortInsert, List.filter_cons, hm]
  | cons x xs ih =>
    rw [sortInsert]
    split_ifs with hle
    · simp [List.filter_cons, hm]
    · have hx : (decide (pd x.date = t)) = false := by
        simp only [decide_eq_false_iff_not]
        intro hcon
        exact hle (by rw [hcon, ← hm])
      rw [List.filter_cons, List.filter_cons, hx]
      simp only [Bool.false_eq_true, if_false]
      exact ih

lemma sortInsert_filter_neg (pd : String → Int) (t : Int) (m : Msg) (l : List Msg)
    (hm : ¬ pd m.date = t) :
    (sortInsert pd m l).filter (fun x => decide (pd x.date = t)) =
      l.filter (fun x => decide (pd x.date = t)) := by
  induction l with
  | nil => simp [sortInsert, List.filter_cons, hm]
  | cons x xs ih =>
    have hdm : (decide (pd m.date = t)) = false := by
      simp only [decide_eq_false_iff_not]
      exact hm
    rw [sortInsert]
    split_ifs with hle
    · rw [List.filter_cons, List.filter_cons, hdm]
      simp only [Bool.false_eq_true, if_false]
    · rw [List.filter_cons, List.filter_cons]
      rw [ih]

lemma sortByDateDesc_filter (pd : String → Int) (t : Int) (l : List Msg) :
    (sortByDateDesc pd l).filter (fun x => decide (pd x.date = t)) =
      l.filter (fun x => decide (pd x.date = t)) := by
  induction l with
  | nil => rfl
  | cons x xs ih =>
    rw [sortByDateDesc]
    by_cases hx : pd x.date = t
    · rw [sortInsert_filter_pos pd t x _ hx, ih, List.filter_cons]
      simp [hx]
    · rw [sortInsert_filter_neg pd t x _ hx, ih, List.filter_cons]
      simp [hx]

/-- C4 amended: for message sets whose location entries are all strings,
`findMessagesInRegion` returns normally, and: a message appears in the result
iff it is the FIRST message of the input whose dedup key (its id when present
and truthy, else the concatenation `text ++ "_" ++ date ++ "_" ++ channel`,
which can conflate distinct (text, date, channel) triples) equals its own key
among those with a location matching the bounds; every result message has a
matching location; keys are pairwise distinct in the result; and the result
is the stable descending sort by parsed timestamp of the collection order. -/
theorem C4_query_semantics (pd : String → Int) (cache : Cache) (bounds : BBox)
    (msgs : List Msg)
    (hstr : ∀ m ∈ msgs, ∀ l ∈ m.locations, ∃ s, l = LocVal.str s) :
    ∃ collected res : List Msg,
      collectInRegion cache bounds msgs = .ok (collected, collected.map keyOf) ∧
      findMessagesInRegion pd cache bounds msgs = .ok res ∧
      res = sortByDateDesc pd collected ∧
      (∀ m : Msg, m ∈ res ↔
        (msgs.filter (fun x =>
          msgMatches cache bounds x && (keyOf x == keyOf m))).head? = some m) ∧
      (∀ m ∈ res, msgMatches cache bounds m = true) ∧
      (res.map keyOf).Nodup ∧
      res.Pairwise (fun a b => pd b.date ≤ pd a.date) ∧
      (∀ t : Int, res.filter (fun x => decide (pd x.date = t)) =
        collected.filter (fun x => decide (pd x.date = t))) := by
  obtain ⟨out, hout, hinv, hnd, hmem⟩ :=
    collect_go cache bounds msgs ([], []) hstr rfl
  have hcoll : collectInRegion cache bounds msgs = .ok (out.1, out.1.map keyOf) := by
    rw [collectInRegion, hout, ← hinv]
  refine ⟨out.1, sortByDateDesc pd out.1, hcoll, ?_, rfl, ?_, ?_, ?_, ?_, ?_⟩
  · rw [findMessagesInRegion, hcoll]
    rfl
  · intro m
    rw [(sortByDateDesc_perm pd out.1).mem_iff, hmem m]
    simp
  · intro m hm
    rw [(sortByDateDesc_perm pd out.1).mem_iff, hmem m] at hm
    have hm2 : (msgs.filter (fun x =>
        msgMatches cache bounds x && (keyOf x == keyOf m))).head? = some m := by
      simpa using hm
    have hmf : m ∈ msgs.filter (fun x =>
        msgMatches cache bounds x && (keyOf x == keyOf m)) := by
      have hc := List.eq_cons_of_mem_head? (Option.mem_def.mpr hm2)
      rw [hc]
      exact List.mem_cons_self _ _
    have := List.of_mem_filter hmf
    exact (Bool.and_eq_true _ _ |>.mp this).1
  · have hout_nd : (out.1.map keyOf).Nodup := hnd (by simp)
    have hperm := (sortByDateDesc_perm pd out.1).map keyOf
    exact hperm.nodup_iff.mpr hout_nd
  · exact sortByDateDesc_pairwise pd out.1
  · intro t
    exact sortByDateDesc_filter pd t out.1

/-- Witness for the C4 amended theorem at a one-message input whose single
location resolves to a point inside the query bounds. -/
theorem C4_query_semantics_witness :
    ∃ collected res : List Msg,
      collectInRegion [("p", some (.pt 31 34))] ⟨32, 31, 35, 34⟩
          [{ id := none, text := "w", date := "dw", channel := "cw",
             locations := [LocVal.str "p"] }] = .ok (collected, collected.map keyOf) ∧
      findMessagesInRegion (fun _ => 0) [("p", some (.pt 31 34))] ⟨32, 31, 35, 34⟩
          [{ id := none, text := "w", date := "dw", channel := "cw",
             locations := [LocVal.str "p"] }] = .ok res ∧
      res = sortByDateDesc (fun _ => 0) collected ∧
      (∀ m : Msg, m ∈ res ↔
        (([{ id := none, text := "w", date := "dw", channel := "cw",
             locations := [LocVal.str "p"] }] : List Msg).filter (fun x =>
          msgMatches [("p", some (.pt 31 34))] ⟨32, 31, 35, 34⟩ x &&
            (keyOf x == keyOf m))).head? = some m) ∧
      (∀ m ∈ res,
        msgMatches [("p", some (.pt 31 34))] ⟨32, 31, 35, 34⟩ m = true) ∧
      (res.map keyOf).Nodup ∧
      res.Pairwise (fun a b =>
        (fun (_ : String) => (0 : Int)) b.date ≤ (fun (_ : String) => (0 : Int)) a.date) ∧
      (∀ t : Int, res.filter (fun x => decide ((fun (_ : String) => (0 : Int)) x.date = t)) =
        collected.filter (fun x => decide ((fun (_ : String) => (0 : Int)) x.date = t))) :=
  C4_query_semantics (fun _ => 0) [("p", some (.pt 31 34))] ⟨32, 31, 35, 34⟩
    [{ id := none, text := "w", date := "dw", channel := "cw",
       locations := [LocVal.str "p"] }]
    (by
      intro m hm l hl
      rw [List.mem_singleton] at hm
      subst hm
      simp only [List.mem_singleton] at hl
      subst hl
      exact ⟨"p", rfl⟩)

/-- C4 counterexample: two distinct messages whose (text, date, channel)
triples differ but whose joined dedup strings coincide
(`"a" ++ "_" ++ "b_2024" ++ "_" ++ "c" = "a_b" ++ "_" ++ "2024" ++ "_" ++ "c"`).
Both have a location matching the query bounds, so the claim requires both in
the result; the code drops the second one. -/
theorem C4_counterexample :
    findMessagesInRegion (fun _ => 0) [("p", some (.pt 31 34))] ⟨32, 31, 35, 34⟩
        [{ id := none, text := "a", date := "b_2024", channel := "c",
           locations := [LocVal.str "p"] },
         { id := none, text := "a_b", date := "2024", channel := "c",
           locations := [LocVal.str "p"] }] =
      .ok [{ id := none, text := "a", date := "b_2024", channel := "c",
             locations := [LocVal.str "p"] }] ∧
    msgMatches [("p", some (.pt 31 34))] ⟨32, 31, 35, 34⟩
      { id := none, text := "a_b", date := "2024", channel := "c",
        locations := [LocVal.str "p"] } = true ∧
    ({ id := none, text := "a", date := "b_2024", channel := "c",
       locations := [LocVal.str "p"] } : Msg) ≠
      { id := none, text := "a_b", date := "2024", channel := "c",
        locations := [LocVal.str "p"] } ∧
    keyOf { id := none, text := "a", date := "b_2024", channel := "c",
            locations := [LocVal.str "p"] } =
      keyOf { id := none, text := "a_b", date := "2024", channel := "c",
              locations := [LocVal.str "p"] } := by
  refine ⟨by rfl, by decide, by decide, by decide⟩

end WarFront
